import Mathlib

/-!
# qrprng: a quadratic-residue permutation generator

A shallow embedding of `qrprng.go`.  Values of Go type `uint64` are natural
numbers below `2 ^ 64`, and every arithmetic operation of the source is reduced
modulo `2 ^ 64` where the Go operation wraps.  Values of Go type `int64` and
`int` are integers.  A Go function that can stop with a run-time panic returns
`Except Panic _`; a Go function returning `(value, error)` returns the pair of
the value and an optional error.
-/

namespace Qrprng

/-! ## Machine arithmetic -/

/-- Run-time panics of the Go program: a shift by a negative count, an integer
division by zero, and an explicit call of `panic(err)`. -/
inductive Panic where
  | negativeShift
  | divideByZero
  | explicit (msg : String)
  deriving DecidableEq, Repr

/-- The error values built with `fmt.Errorf` in the source, one constructor per
format string, carrying the number printed in the message. -/
inductive Error where
  /-- Message "invalid prime %d: must be 3 mod 4". -/
  | notThreeModFour (prime : Nat)
  /-- Message "invalid intermediate offset %d: must be less than chosen prime". -/
  | invalidIntermediateOffset (intermediateOffset : Nat)
  /-- Message "invalid prime %d: number is not prime". -/
  | notPrime (prime : Nat)
  /-- Message "invalid index %d: must be less than chosen prime". -/
  | invalidIndex (i : Nat)
  deriving DecidableEq, Repr

/-- Constant `math.MaxUint64`. -/
def MaxUint64 : Nat := 2 ^ 64 - 1

/-- Constant `math.MaxInt64`. -/
def MaxInt64 : Nat := 2 ^ 63 - 1

/-- Go `a + b` on `uint64`. -/
def add64 (a b : Nat) : Nat := (a + b) % 2 ^ 64

/-- Go `a - b` on `uint64` (operands below `2 ^ 64`). -/
def sub64 (a b : Nat) : Nat := (a + 2 ^ 64 - b) % 2 ^ 64

/-- Go `a * b` on `uint64`. -/
def mul64 (a b : Nat) : Nat := (a * b) % 2 ^ 64

/-- Go `a % b` on `uint64`: panics when the divisor is zero. -/
def mod64 (a b : Nat) : Except Panic Nat :=
  if b = 0 then .error .divideByZero else .ok (a % b)

/-- Go `a << n` on `uint64` with a count `n` of type `int`: panics when the
count is negative, and drops the bits shifted past bit 63. -/
def shl64 (a : Nat) (n : Int) : Except Panic Nat :=
  if n < 0 then .error .negativeShift else .ok ((a * 2 ^ n.toNat) % 2 ^ 64)

/-- Go conversion `int64(x)` of an integer value: two's complement wrap. -/
def toInt64 (x : Int) : Int := (x + 2 ^ 63) % 2 ^ 64 - 2 ^ 63

/-- Go conversion `uint64(x)` of an integer value. -/
def toUint64 (x : Int) : Nat := (x % 2 ^ 64).toNat

/-- Auxiliary loop of `Len64`: the number of halvings that take `x` to zero,
at most `fuel` of them. -/
def lenAux : Nat → Nat → Nat
  | 0, _ => 0
  | fuel + 1, x => if x = 0 then 0 else lenAux fuel (x / 2) + 1

/-- Library function `bits.Len64`: the minimum number of bits needed to
represent `x`, and `0` for `x = 0`. -/
def Len64 (x : Nat) : Nat := lenAux 64 x

/-- Library method `(*big.Int).ProbablyPrime(n)` on a value below `2 ^ 64`,
where it is documented to be exact; a negative value is not prime. -/
def ProbablyPrime (x : Int) (_n : Nat) : Bool :=
  if x < 0 then false else decide (Nat.Prime x.toNat)

/-! ## The program -/

/-- Constant `INT63_MASK`. -/
def INT63_MASK : Nat := (1 <<< 63) - 1

/-- Constant `DEFAULT_PRIME`. -/
def DEFAULT_PRIME : Nat := MaxUint64 - 188

/-- Constant `DEFAULT_INTERMEDIATE_OFFSET`. -/
def DEFAULT_INTERMEDIATE_OFFSET : Nat := 5577006791947779410

/-- The struct `QuadraticResiduePRNG`. -/
structure QuadraticResiduePRNG where
  prime : Nat
  intermediateOffset : Nat
  offset : Nat
  maxMask : Nat
  mask : Nat
  idx : Nat
  deriving DecidableEq, Repr

/-- The zero value `QuadraticResiduePRNG{}`. -/
def zeroPRNG : QuadraticResiduePRNG :=
  { prime := 0, intermediateOffset := 0, offset := 0, maxMask := 0, mask := 0, idx := 0 }

/-- Function `bigIntFromUint64`; the big integer is an `Int`. -/
def bigIntFromUint64 (n : Nat) : Int :=
  if n ≤ MaxInt64 then toInt64 (n : Int)
  else (MaxInt64 : Int) + toInt64 ((sub64 n MaxInt64 : Nat) : Int)

/-- Function `validate`; `none` is the `nil` error. -/
def validate (prime _offset intermediateOffset : Nat) : Option Error :=
  if prime % 4 ≠ 3 then some (.notThreeModFour prime)
  else if intermediateOffset ≥ prime then
    some (.invalidIntermediateOffset intermediateOffset)
  else if ProbablyPrime (bigIntFromUint64 prime) 0 = false then some (.notPrime prime)
  else none

/-- Function `calculateMaxMask`. -/
def calculateMaxMask (prime : Nat) : Except Panic Nat := do
  let primeBits : Int := (Len64 (sub64 prime 1) : Int)
  let s ← shl64 1 (primeBits - 1)
  pure (sub64 s 1)

/-- Function `calculateMask`. -/
def calculateMask (prime intermediateOffset maxMask : Nat) : Except Panic Nat := do
  let min ← shl64 1 ((Len64 maxMask : Int) - 1)
  let r ← mod64 (add64 prime intermediateOffset) (sub64 maxMask min)
  pure (add64 min r)

/-- Function `New`: the returned pair is the generator and the error. -/
def New (prime intermediateOffset offset : Nat) :
    Except Panic (QuadraticResiduePRNG × Option Error) :=
  match validate prime offset intermediateOffset with
  | some err => .ok (zeroPRNG, some err)
  | none => do
    let maxMask ← calculateMaxMask prime
    let mask ← calculateMask prime intermediateOffset maxMask
    pure ({ prime := prime, intermediateOffset := intermediateOffset, offset := offset,
            maxMask := maxMask, mask := mask, idx := 0 }, none)

/-- Function `Default`. -/
def Default : Except Panic QuadraticResiduePRNG := do
  let r ← New DEFAULT_PRIME DEFAULT_INTERMEDIATE_OFFSET 0
  match r.2 with
  | some _ => .error (.explicit "validation error")
  | none => pure r.1

/-- Method `applyMask`. -/
def applyMask (prng : QuadraticResiduePRNG) (i : Nat) : Nat :=
  if i ≤ prng.maxMask then i ^^^ prng.mask else i

/-- Method `permuteQPR`. -/
def permuteQPR (prng : QuadraticResiduePRNG) (i : Nat) : Except Panic Nat := do
  let residue ← mod64 (mul64 i i) prng.prime
  if i ≤ prng.prime / 2 then pure residue else pure (sub64 prng.prime residue)

/-- Method `Index`. -/
def Index (prng : QuadraticResiduePRNG) (i : Nat) : Except Panic (Nat × Option Error) :=
  if i ≥ prng.prime then .ok (i, some (.invalidIndex i))
  else do
    let q ← permuteQPR prng i
    let intermediate := add64 q prng.intermediateOffset
    let r ← mod64 intermediate prng.prime
    let masked := applyMask prng r
    let q2 ← permuteQPR prng masked
    pure (add64 prng.offset q2, none)

/-- Method `Uint64`: the returned pair is the output and the generator after
the call. -/
def Uint64 (prng : QuadraticResiduePRNG) : Except Panic (Nat × QuadraticResiduePRNG) := do
  let r ← Index prng prng.idx
  pure (r.1, { prng with idx := add64 prng.idx 1 })

/-- Method `Int63`. -/
def Int63 (prng : QuadraticResiduePRNG) : Except Panic (Int × QuadraticResiduePRNG) := do
  let r ← Uint64 prng
  pure (toInt64 ((r.1 &&& INT63_MASK : Nat) : Int), r.2)

/-- Method `Seed`, returning the generator after the call. -/
def Seed (prng : QuadraticResiduePRNG) (seed : Int) : QuadraticResiduePRNG :=
  if seed ≥ 0 then
    { prng with intermediateOffset := toUint64 seed, idx := 0 }
  else
    { prng with
      intermediateOffset := sub64 MaxUint64 (toUint64 (toInt64 (-1 * seed))), idx := 0 }

/-- The outputs of `n` successive calls of `Uint64`, in order, and the
generator after them. -/
def callUint64 : Nat → QuadraticResiduePRNG → Except Panic (List Nat × QuadraticResiduePRNG)
  | 0, prng => pure ([], prng)
  | n + 1, prng => do
    let r ← Uint64 prng
    let rest ← callUint64 n r.2
    pure (r.1 :: rest.1, rest.2)

/-- One call on a generator from outside the package. -/
inductive Call where
  | uint64
  | int63
  | index (i : Nat)
  | seed (s : Int)
  deriving DecidableEq, Repr

/-- The generator after one call; the returned values are dropped. -/
def step (prng : QuadraticResiduePRNG) : Call → Except Panic QuadraticResiduePRNG
  | .uint64 => do
    let r ← Uint64 prng
    pure r.2
  | .int63 => do
    let r ← Int63 prng
    pure r.2
  | .index i => do
    let _ ← Index prng i
    pure prng
  | .seed s => pure (Seed prng s)

/-- The generator after a sequence of calls. -/
def run : List Call → QuadraticResiduePRNG → Except Panic QuadraticResiduePRNG
  | [], prng => pure prng
  | c :: cs, prng => do
    let next ← step prng c
    run cs next

/-- The folded quadratic residue that `permuteQPR` computes when the product
`i * i` does not wrap. -/
def fold (p i : Nat) : Nat := if i ≤ p / 2 then i * i % p else p - i * i % p

/-- The composite map of `Index` when nothing wraps. -/
def indexMap (g : QuadraticResiduePRNG) (i : Nat) : Nat :=
  fold g.prime (applyMask g ((fold g.prime i + g.intermediateOffset) % g.prime))

/-- Modular exponentiation by repeated squaring, with at most `fuel` bits of
exponent: `a ^ n % m`. -/
def powMod : Nat → Nat → Nat → Nat → Nat
  | 0, _, _, m => 1 % m
  | fuel + 1, a, n, m =>
    if n = 0 then 1 % m
    else if n % 2 = 0 then powMod fuel a (n / 2) m * powMod fuel a (n / 2) m % m
    else powMod fuel a (n / 2) m * powMod fuel a (n / 2) m % m * a % m

/-- For each of the 47 numbers `DEFAULT_PRIME + 4 * (j + 1)`, `j < 47`, that lie
between the default prime and `2 ^ 64` and are congruent to 3 modulo 4, a divisor
other than 1 and the number itself. -/
def properDivisors : List Nat :=
  [13, 3, 7, 3183958073, 3, 1291, 5, 3, 14879, 7, 3, 5, 11, 3, 127, 315781601, 3, 363269,
   119026343, 3, 2617, 5, 3, 7, 17099, 3, 5, 61, 3, 17, 7, 3, 41, 29, 3, 11071, 5, 3, 827, 13,
   3, 5, 19, 3, 7, 11, 3]

deriving instance DecidableEq for Except

/-! ## Bit lengths -/

theorem lenAux_bounds : ∀ fuel x, x < 2 ^ fuel → 0 < x →
    0 < lenAux fuel x ∧ 2 ^ (lenAux fuel x - 1) ≤ x ∧ x < 2 ^ lenAux fuel x := by
  intro fuel
  induction fuel with
  | zero => intro x hx h0; simp at hx; omega
  | succ n ih =>
    intro x hx h0
    have hx0 : x ≠ 0 := by omega
    simp only [lenAux, hx0, if_false]
    by_cases h1 : x / 2 = 0
    · have hx1 : x = 1 := by omega
      subst hx1
      have : lenAux n (1 / 2) = 0 := by
        cases n <;> simp [lenAux]
      rw [this]; simp
    · have hlt : x / 2 < 2 ^ n := by
        rw [pow_succ] at hx; omega
      obtain ⟨hpos, hlo, hhi⟩ := ih (x / 2) hlt (by omega)
      refine ⟨by omega, ?_, ?_⟩
      · have : lenAux n (x / 2) + 1 - 1 = (lenAux n (x / 2) - 1) + 1 := by omega
        rw [this, pow_succ]; omega
      · rw [pow_succ]; omega

theorem Len64_bounds (x : Nat) (hx : x < 2 ^ 64) (h0 : 0 < x) :
    0 < Len64 x ∧ 2 ^ (Len64 x - 1) ≤ x ∧ x < 2 ^ Len64 x :=
  lenAux_bounds 64 x hx h0

theorem Len64_le (x : Nat) : Len64 x ≤ 64 := by
  have : ∀ fuel x, lenAux fuel x ≤ fuel := by
    intro fuel
    induction fuel with
    | zero => intro x; simp [lenAux]
    | succ n ih =>
      intro x
      simp only [lenAux]
      split
      · omega
      · have := ih (x / 2); omega
  exact this 64 x

theorem Len64_eq (x k : Nat) (hk : 0 < k) (hlo : 2 ^ (k - 1) ≤ x) (hhi : x < 2 ^ k)
    (hx : x < 2 ^ 64) : Len64 x = k := by
  have h0 : 0 < x := lt_of_lt_of_le (by positivity) hlo
  obtain ⟨hpos, hl, hh⟩ := Len64_bounds x hx h0
  have h1 : 2 ^ (k - 1) < 2 ^ Len64 x := lt_of_le_of_lt hlo hh
  have h2 : 2 ^ (Len64 x - 1) < 2 ^ k := lt_of_le_of_lt hl hhi
  rw [Nat.pow_lt_pow_iff_right (by norm_num)] at h1 h2
  omega

/-! ## The folded quadratic residue is a permutation -/

theorem sq_mod_eq_cases (p i j : Nat) (hp : p.Prime) (hi : i < p) (hj : j < p)
    (h : i * i % p = j * j % p) : i = j ∨ i + j = p ∨ (i = 0 ∧ j = 0) := by
  haveI : Fact p.Prime := ⟨hp⟩
  have hz : ((i * i : Nat) : ZMod p) = ((j * j : Nat) : ZMod p) :=
    (ZMod.natCast_eq_natCast_iff' _ _ p).mpr h
  push_cast at hz
  rcases mul_self_eq_mul_self_iff.mp hz with h1 | h1
  · left
    have := (ZMod.natCast_eq_natCast_iff' _ _ p).mp h1
    rwa [Nat.mod_eq_of_lt hi, Nat.mod_eq_of_lt hj] at this
  · right
    have h2 : ((i + j : Nat) : ZMod p) = 0 := by
      push_cast; rw [h1]; ring
    have h3 : p ∣ i + j := (ZMod.natCast_zmod_eq_zero_iff_dvd _ _).mp h2
    obtain ⟨c, hc⟩ := h3
    have hc2 : c < 2 := by
      by_contra hcon
      have : p * 2 ≤ p * c := Nat.mul_le_mul_left p (by omega)
      omega
    interval_cases c
    · right; omega
    · left; omega

theorem sq_mod_add_ne (p i j : Nat) (hp : p.Prime) (h4 : p % 4 = 3) (hj0 : 0 < j)
    (hj : j < p) : i * i % p + j * j % p ≠ p := by
  haveI : Fact p.Prime := ⟨hp⟩
  intro h
  have hz : ((i * i % p + j * j % p : Nat) : ZMod p) = 0 := by
    rw [h]; exact ZMod.natCast_self p
  rw [Nat.cast_add, ZMod.natCast_mod, ZMod.natCast_mod] at hz
  push_cast at hz
  have hjz : (j : ZMod p) ≠ 0 := by
    intro hj'
    have := (ZMod.natCast_zmod_eq_zero_iff_dvd _ _).mp hj'
    exact absurd (Nat.le_of_dvd hj0 this) (by omega)
  have hsq : IsSquare (-1 : ZMod p) := by
    refine ⟨(i : ZMod p) * (j : ZMod p)⁻¹, ?_⟩
    have : (i : ZMod p) * i = -((j : ZMod p) * j) := eq_neg_of_add_eq_zero_left hz
    field_simp
    rw [this]
  exact (ZMod.exists_sq_eq_neg_one_iff.mp hsq) h4

theorem fold_lt (p i : Nat) (hp : p.Prime) (hi : i < p) : fold p i < p := by
  have hpos : 0 < p := hp.pos
  unfold fold
  split
  · exact Nat.mod_lt _ hpos
  · rename_i h
    have hne : i * i % p ≠ 0 := by
      intro h0
      have hd : p ∣ i * i := Nat.dvd_of_mod_eq_zero h0
      have hd2 : p ∣ i := by
        rcases (Nat.Prime.dvd_mul hp).mp hd with h | h <;> exact h
      have : p ≤ i := Nat.le_of_dvd (by omega) hd2
      omega
    have := Nat.mod_lt (i * i) hpos
    omega

theorem fold_inj (p i j : Nat) (hp : p.Prime) (h4 : p % 4 = 3) (hi : i < p) (hj : j < p)
    (h : fold p i = fold p j) : i = j := by
  have hpos : 0 < p := hp.pos
  have hmi := Nat.mod_lt (i * i) hpos
  have hmj := Nat.mod_lt (j * j) hpos
  unfold fold at h
  by_cases hi2 : i ≤ p / 2 <;> by_cases hj2 : j ≤ p / 2
  · simp only [hi2, hj2, if_true] at h
    rcases sq_mod_eq_cases p i j hp hi hj h with h1 | h1 | h1 <;> omega
  · simp only [hi2, hj2, if_true, if_false] at h
    exact absurd (by omega) (sq_mod_add_ne p i j hp h4 (by omega) hj)
  · simp only [hi2, hj2, if_true, if_false] at h
    exact absurd (by omega) (sq_mod_add_ne p j i hp h4 (by omega) hi)
  · simp only [hi2, hj2, if_false] at h
    have h' : i * i % p = j * j % p := by omega
    rcases sq_mod_eq_cases p i j hp hi hj h' with h1 | h1 | h1 <;> omega

/-! ## Machine arithmetic without wrap-around -/

theorem add64_eq (a b : Nat) (h : a + b < 2 ^ 64) : add64 a b = a + b :=
  Nat.mod_eq_of_lt h

theorem sub64_eq (a b : Nat) (hb : b ≤ a) (ha : a < 2 ^ 64) : sub64 a b = a - b := by
  unfold sub64
  have : a + 2 ^ 64 - b = (a - b) + 2 ^ 64 := by omega
  rw [this, Nat.add_mod_right]
  exact Nat.mod_eq_of_lt (by omega)

theorem mul64_eq (a b : Nat) (h : a * b < 2 ^ 64) : mul64 a b = a * b :=
  Nat.mod_eq_of_lt h

theorem mod64_ok (a b : Nat) (h : b ≠ 0) : mod64 a b = .ok (a % b) := by
  simp [mod64, h]

theorem shl64_one (k : Nat) (hk : k < 64) : shl64 1 (k : Int) = .ok (2 ^ k) := by
  have h1 : ¬ ((k : Int) < 0) := by omega
  have h2 : (2 : Nat) ^ k < 2 ^ 64 := Nat.pow_lt_pow_right (by norm_num) hk
  simp only [shl64, h1, if_false, Int.toNat_ofNat, one_mul, Nat.mod_eq_of_lt h2]

theorem toInt64_eq (x : Int) (h0 : 0 ≤ x) (h1 : x < 2 ^ 63) : toInt64 x = x := by
  unfold toInt64
  rw [Int.emod_eq_of_lt (by omega) (by omega)]
  omega

theorem bigIntFromUint64_eq (n : Nat) (h : n < 2 ^ 64 - 1) : bigIntFromUint64 n = (n : Int) := by
  unfold bigIntFromUint64 MaxInt64
  split
  · rename_i hle
    exact toInt64_eq _ (by omega) (by omega)
  · rename_i hle
    rw [sub64_eq _ _ (by omega) (by omega), toInt64_eq _ (by omega) (by omega)]
    omega

theorem bigIntFromUint64_max : bigIntFromUint64 (2 ^ 64 - 1) = -1 := by decide

theorem not_prime_max : ¬ Nat.Prime (2 ^ 64 - 1) := by norm_num

theorem ProbablyPrime_iff (n : Nat) (h : n < 2 ^ 64) :
    ProbablyPrime (bigIntFromUint64 n) 0 = true ↔ n.Prime := by
  by_cases hn : n = 2 ^ 64 - 1
  · subst hn
    rw [bigIntFromUint64_max]
    simp only [ProbablyPrime]
    constructor
    · intro h'; exact absurd h' (by decide)
    · intro h'; exact absurd h' not_prime_max
  · rw [bigIntFromUint64_eq n (by omega)]
    simp [ProbablyPrime]

/-! ## Validation and construction -/

theorem validate_eq (prime offset seed0 : Nat) (h : prime < 2 ^ 64) :
    validate prime offset seed0 =
      if prime % 4 ≠ 3 then some (.notThreeModFour prime)
      else if seed0 ≥ prime then some (.invalidIntermediateOffset seed0)
      else if ¬ prime.Prime then some (.notPrime prime)
      else none := by
  unfold validate
  have := ProbablyPrime_iff prime h
  by_cases hp : prime.Prime
  · have h1 : ProbablyPrime (bigIntFromUint64 prime) 0 = true := this.mpr hp
    simp [h1, hp]
  · have h1 : ProbablyPrime (bigIntFromUint64 prime) 0 = false := by
      cases hb : ProbablyPrime (bigIntFromUint64 prime) 0
      · rfl
      · exact absurd (this.mp hb) hp
    simp [h1, hp]

theorem calculateMaxMask_eq (p : Nat) (h2 : 2 ≤ p) (h64 : p < 2 ^ 64) :
    calculateMaxMask p = .ok (2 ^ (Len64 (p - 1) - 1) - 1) := by
  obtain ⟨hpos, -, -⟩ := Len64_bounds (p - 1) (by omega) (by omega)
  have hle := Len64_le (p - 1)
  unfold calculateMaxMask
  rw [sub64_eq p 1 (by omega) h64]
  have hc : ((Len64 (p - 1) : Nat) : Int) - 1 = ((Len64 (p - 1) - 1 : Nat) : Int) := by omega
  have hlt : (2 : Nat) ^ (Len64 (p - 1) - 1) < 2 ^ 64 :=
    Nat.pow_lt_pow_right (by norm_num) (by omega)
  have hge : 1 ≤ (2 : Nat) ^ (Len64 (p - 1) - 1) := Nat.one_le_two_pow
  simp only [hc, shl64_one _ (show Len64 (p - 1) - 1 < 64 by omega)]
  show Except.ok (sub64 _ 1) = _
  rw [sub64_eq _ 1 hge hlt]

theorem calculateMask_eq (p seed0 k : Nat) (hk2 : 2 ≤ k) (hk : k ≤ 63) :
    calculateMask p seed0 (2 ^ k - 1) =
      .ok (2 ^ (k - 1) + add64 p seed0 % (2 ^ (k - 1) - 1)) := by
  have hklt : (2 : Nat) ^ k < 2 ^ 64 := Nat.pow_lt_pow_right (by norm_num) (by omega)
  have hsplit : (2 : Nat) ^ k = 2 ^ (k - 1) * 2 := by
    rw [← pow_succ]; congr 1; omega
  have h4 : 2 ≤ (2 : Nat) ^ (k - 1) := by
    calc 2 = 2 ^ 1 := by norm_num
      _ ≤ 2 ^ (k - 1) := Nat.pow_le_pow_right (by norm_num) (by omega)
  have hlen : Len64 (2 ^ k - 1) = k := Len64_eq _ k (by omega) (by omega) (by omega) (by omega)
  unfold calculateMask
  rw [hlen]
  have hc : ((k : Nat) : Int) - 1 = ((k - 1 : Nat) : Int) := by omega
  simp only [hc, shl64_one _ (show k - 1 < 64 by omega)]
  show (do let r ← mod64 (add64 p seed0) (sub64 (2 ^ k - 1) (2 ^ (k - 1))); pure (add64 (2 ^ (k - 1)) r)) = _
  rw [sub64_eq _ _ (by omega) (by omega)]
  have hd : 2 ^ k - 1 - 2 ^ (k - 1) = 2 ^ (k - 1) - 1 := by omega
  rw [hd, mod64_ok _ _ (by omega)]
  show Except.ok (add64 _ _) = _
  have hr : add64 p seed0 % (2 ^ (k - 1) - 1) < 2 ^ (k - 1) - 1 := Nat.mod_lt _ (by omega)
  rw [add64_eq _ _ (by omega)]

/-- The generator that `New` builds from validated parameters. -/
theorem New_ok (p seed0 off : Nat) (hp : p.Prime) (h4 : p % 4 = 3) (h3 : p ≠ 3)
    (h64 : p < 2 ^ 64) (hs : seed0 < p) :
    ∃ k m, 2 ≤ k ∧ k ≤ 63 ∧ k + 1 = Len64 (p - 1) ∧ 2 ^ k < p ∧ p ≤ 2 ^ (k + 1) ∧
      2 ^ (k - 1) ≤ m ∧ m < 2 ^ k - 1 ∧
      m = 2 ^ (k - 1) + add64 p seed0 % (2 ^ (k - 1) - 1) ∧
      New p seed0 off = .ok (
        { prime := p, intermediateOffset := seed0, offset := off,
          maxMask := 2 ^ k - 1, mask := m, idx := 0 }, none) := by
  have hp5 : 5 ≤ p := by
    have := hp.two_le
    by_contra hcon
    have : p = 2 ∨ p = 3 ∨ p = 4 := by omega
    rcases this with h | h | h <;> omega
  obtain ⟨hpos, hlo, hhi⟩ := Len64_bounds (p - 1) (by omega) (by omega)
  have hle := Len64_le (p - 1)
  have hb3 : 3 ≤ Len64 (p - 1) := by
    by_contra hcon
    have : (2 : Nat) ^ Len64 (p - 1) ≤ 2 ^ 2 := Nat.pow_le_pow_right (by norm_num) (by omega)
    omega
  set k := Len64 (p - 1) - 1 with hkdef
  have hk2 : 2 ≤ k := by omega
  have hk : k ≤ 63 := by omega
  have hk1 : k + 1 = Len64 (p - 1) := by omega
  have hsplit : (2 : Nat) ^ k = 2 ^ (k - 1) * 2 := by
    rw [← pow_succ]; congr 1; omega
  have h4' : 2 ≤ (2 : Nat) ^ (k - 1) := by
    calc 2 = 2 ^ 1 := by norm_num
      _ ≤ 2 ^ (k - 1) := Nat.pow_le_pow_right (by norm_num) (by omega)
  have hr : add64 p seed0 % (2 ^ (k - 1) - 1) < 2 ^ (k - 1) - 1 := Nat.mod_lt _ (by omega)
  refine ⟨k, 2 ^ (k - 1) + add64 p seed0 % (2 ^ (k - 1) - 1), hk2, hk, hk1, by omega, ?_,
    by omega, by omega, rfl, ?_⟩
  · rw [hk1]; omega
  · have hv : validate p off seed0 = none := by
      rw [validate_eq p off seed0 h64]
      simp [h4, hs, hp]
    unfold New
    rw [hv]
    simp only []
    rw [calculateMaxMask_eq p (by omega) h64, ← hkdef]
    show (do let mask ← calculateMask p seed0 (2 ^ k - 1); pure _) = _
    rw [calculateMask_eq p seed0 k hk2 hk]
    rfl

/-! ## Evaluation of `Index` -/

theorem permuteQPR_ok (g : QuadraticResiduePRNG) (i : Nat) (h0 : g.prime ≠ 0) :
    permuteQPR g i = .ok (if i ≤ g.prime / 2 then mul64 i i % g.prime
      else sub64 g.prime (mul64 i i % g.prime)) := by
  unfold permuteQPR
  rw [mod64_ok _ _ h0]
  show (if i ≤ g.prime / 2 then pure (mul64 i i % g.prime)
    else pure (sub64 g.prime (mul64 i i % g.prime)) : Except Panic Nat) = _
  split <;> rfl

theorem permuteQPR_eq_fold (g : QuadraticResiduePRNG) (i : Nat) (h0 : g.prime ≠ 0)
    (h64 : g.prime < 2 ^ 64) (hi : i * i < 2 ^ 64) :
    permuteQPR g i = .ok (fold g.prime i) := by
  rw [permuteQPR_ok g i h0, mul64_eq i i hi]
  have hm : i * i % g.prime < g.prime := Nat.mod_lt _ (by omega)
  unfold fold
  split
  · rfl
  · rw [sub64_eq _ _ (by omega) h64]

/-- The value `Index` computes on an index below the prime; no step panics. -/
theorem Index_ok (g : QuadraticResiduePRNG) (i : Nat) (hi : i < g.prime) :
    ∃ q r q2, permuteQPR g i = .ok q ∧ r = add64 q g.intermediateOffset % g.prime ∧
      permuteQPR g (applyMask g r) = .ok q2 ∧ Index g i = .ok (add64 g.offset q2, none) := by
  have h0 : g.prime ≠ 0 := by omega
  have hn : ¬ (i ≥ g.prime) := by omega
  refine ⟨_, _, _, permuteQPR_ok g i h0, rfl, permuteQPR_ok g _ h0, ?_⟩
  unfold Index
  rw [if_neg hn, permuteQPR_ok g i h0]
  show (do let r ← mod64 _ g.prime; let q2 ← permuteQPR g (applyMask g r); pure _) = _
  rw [mod64_ok _ _ h0]
  show (do let q2 ← permuteQPR g (applyMask g _); pure _) = _
  rw [permuteQPR_ok g _ h0]
  rfl

theorem Index_error (g : QuadraticResiduePRNG) (i : Nat) (hi : g.prime ≤ i) :
    Index g i = .ok (i, some (.invalidIndex i)) := by
  unfold Index
  rw [if_pos hi]

theorem applyMask_lt (g : QuadraticResiduePRNG) (k p x : Nat) (hmax : g.maxMask = 2 ^ k - 1)
    (hmask : g.mask < 2 ^ k) (hp : 2 ^ k < p) (hx : x < p) : applyMask g x < p := by
  unfold applyMask
  split
  · rename_i h
    have : x ^^^ g.mask < 2 ^ k := Nat.xor_lt_two_pow (by omega) hmask
    omega
  · exact hx

theorem applyMask_applyMask (g : QuadraticResiduePRNG) (k x : Nat)
    (hmax : g.maxMask = 2 ^ k - 1) (hmask : g.mask < 2 ^ k) :
    applyMask g (applyMask g x) = x := by
  have hpos : 0 < 2 ^ k := by positivity
  unfold applyMask
  by_cases h : x ≤ g.maxMask
  · have h1 : x ^^^ g.mask < 2 ^ k := Nat.xor_lt_two_pow (by omega) hmask
    have h2 : x ^^^ g.mask ≤ g.maxMask := by omega
    rw [if_pos h, if_pos h2, Nat.xor_assoc, Nat.xor_self, Nat.xor_zero]
  · rw [if_neg h, if_neg h]

theorem add_mod_inj (p s a b : Nat) (ha : a < p) (hb : b < p)
    (h : (a + s) % p = (b + s) % p) : a = b := by
  have h1 : a ≡ b [MOD p] := Nat.ModEq.add_right_cancel' s h
  have h2 : a % p = b % p := h1
  rwa [Nat.mod_eq_of_lt ha, Nat.mod_eq_of_lt hb] at h2

theorem Index_small (g : QuadraticResiduePRNG) (i : Nat) (hp : g.prime.Prime)
    (h32 : g.prime < 2 ^ 32) (hs : g.intermediateOffset < 2 ^ 63) (k : Nat)
    (hmax : g.maxMask = 2 ^ k - 1)
    (hmask : g.mask < 2 ^ k) (hk : 2 ^ k < g.prime) (hi : i < g.prime) :
    Index g i = .ok (add64 g.offset (indexMap g i), none) := by
  have h0 : g.prime ≠ 0 := hp.pos.ne'
  have sq : ∀ x, x < g.prime → x * x < 2 ^ 64 := by
    intro x hx
    have h1 : x * x ≤ 2 ^ 32 * 2 ^ 32 := Nat.mul_le_mul (by omega) (by omega)
    have h2 : x * x ≠ 2 ^ 32 * 2 ^ 32 := by
      intro h
      have : x * x < 2 ^ 32 * 2 ^ 32 := Nat.mul_lt_mul'' (by omega) (by omega)
      omega
    norm_num at h1 h2 ⊢
    omega
  obtain ⟨q, r, q2, hq, hr, hq2, hI⟩ := Index_ok g i hi
  rw [permuteQPR_eq_fold g i h0 (by omega) (sq i hi)] at hq
  have hq' : q = fold g.prime i := by injection hq with h; exact h.symm
  have hfl : fold g.prime i < g.prime := fold_lt _ _ hp hi
  have hr' : r = (fold g.prime i + g.intermediateOffset) % g.prime := by
    rw [hr, hq', add64_eq _ _ (by omega)]
  have hrl : r < g.prime := by rw [hr']; exact Nat.mod_lt _ hp.pos
  have hml : applyMask g r < g.prime := applyMask_lt g k _ r hmax hmask hk hrl
  rw [permuteQPR_eq_fold g _ h0 (by omega) (sq _ hml)] at hq2
  have hq2' : q2 = fold g.prime (applyMask g r) := by injection hq2 with h; exact h.symm
  rw [hI, hq2', hr']
  rfl

theorem indexMap_lt (g : QuadraticResiduePRNG) (i : Nat) (hp : g.prime.Prime) (k : Nat)
    (hmax : g.maxMask = 2 ^ k - 1)
    (hmask : g.mask < 2 ^ k) (hk : 2 ^ k < g.prime) : indexMap g i < g.prime :=
  fold_lt _ _ hp (applyMask_lt g k _ _ hmax hmask hk (Nat.mod_lt _ hp.pos))

theorem indexMap_inj (g : QuadraticResiduePRNG) (i j : Nat) (hp : g.prime.Prime)
    (h4 : g.prime % 4 = 3) (k : Nat) (hmax : g.maxMask = 2 ^ k - 1)
    (hmask : g.mask < 2 ^ k) (hk : 2 ^ k < g.prime) (hi : i < g.prime) (hj : j < g.prime)
    (h : indexMap g i = indexMap g j) : i = j := by
  unfold indexMap at h
  have hfi := fold_lt _ _ hp hi
  have hfj := fold_lt _ _ hp hj
  have hri := Nat.mod_lt (fold g.prime i + g.intermediateOffset) hp.pos
  have hrj := Nat.mod_lt (fold g.prime j + g.intermediateOffset) hp.pos
  have h1 := fold_inj _ _ _ hp h4 (applyMask_lt g k _ _ hmax hmask hk hri)
    (applyMask_lt g k _ _ hmax hmask hk hrj) h
  have h2 : (fold g.prime i + g.intermediateOffset) % g.prime
      = (fold g.prime j + g.intermediateOffset) % g.prime := by
    have h3 := congrArg (applyMask g) h1
    rwa [applyMask_applyMask g k _ hmax hmask, applyMask_applyMask g k _ hmax hmask] at h3
  exact fold_inj _ _ _ hp h4 hi hj (add_mod_inj _ _ _ _ hfi hfj h2)

theorem image_eq_range (f : Nat → Nat) (p : Nat) (hlt : ∀ i, i < p → f i < p)
    (hinj : ∀ i j, i < p → j < p → f i = f j → i = j) :
    (Finset.range p).image f = Finset.range p := by
  apply Finset.eq_of_subset_of_card_le
  · intro x hx
    rw [Finset.mem_image] at hx
    obtain ⟨i, hi, rfl⟩ := hx
    exact Finset.mem_range.mpr (hlt i (Finset.mem_range.mp hi))
  · rw [Finset.card_image_of_injOn]
    intro i hi j hj hij
    exact hinj i j (Finset.mem_range.mp hi) (Finset.mem_range.mp hj) hij

/-! ## Primality of the default prime -/

theorem powMod_eq : ∀ fuel a n m, n < 2 ^ fuel → powMod fuel a n m = a ^ n % m := by
  intro fuel
  induction fuel with
  | zero =>
    intro a n m hn
    have : n = 0 := by simp at hn; omega
    subst this
    simp [powMod]
  | succ f ih =>
    intro a n m hn
    unfold powMod
    by_cases h0 : n = 0
    · subst h0; simp
    · have hlt : n / 2 < 2 ^ f := by rw [pow_succ] at hn; omega
      rw [if_neg h0, ih a (n / 2) m hlt]
      by_cases h2 : n % 2 = 0
      · rw [if_pos h2]
        have hn2 : n = n / 2 + n / 2 := by omega
        conv_rhs => rw [hn2, pow_add]
        exact (Nat.mul_mod _ _ _).symm
      · rw [if_neg h2]
        have hn2 : n = n / 2 + n / 2 + 1 := by omega
        conv_rhs => rw [hn2, pow_succ, pow_add]
        rw [Nat.mul_mod (a ^ (n / 2) * a ^ (n / 2)) a m, Nat.mul_mod (a ^ (n / 2)) _ m]
        rw [Nat.mul_mod (a ^ (n / 2) % m * (a ^ (n / 2) % m) % m) a m]
        simp

theorem natCast_pow_eq_one_iff (p a n : Nat) (hp : 1 < p) :
    ((a : ZMod p) ^ n = 1) ↔ a ^ n % p = 1 := by
  have h1 : ((a : ZMod p) ^ n = 1) ↔ (((a ^ n : Nat) : ZMod p) = ((1 : Nat) : ZMod p)) := by
    push_cast; rfl
  rw [h1, ZMod.natCast_eq_natCast_iff', Nat.mod_eq_of_lt hp]

/-- Lucas certificate of primality: `l` lists the prime factors of `p - 1` and
`a` has order `p - 1` modulo `p`. -/
theorem lucas_cert (p a : Nat) (l : List Nat) (hp : 1 < p) (h64 : p ≤ 2 ^ 64)
    (hl : ∀ x ∈ l, x.Prime) (hprod : l.prod = p - 1) (ha : powMod 64 a (p - 1) p = 1)
    (hd : ∀ x ∈ l, powMod 64 a ((p - 1) / x) p ≠ 1) : p.Prime := by
  apply lucas_primality p (a : ZMod p)
  · rw [natCast_pow_eq_one_iff p a _ hp, ← powMod_eq 64 a (p - 1) p (by omega)]
    exact ha
  · intro q hq hdvd
    rw [← hprod] at hdvd
    obtain ⟨x, hx, hqx⟩ := (Prime.dvd_prod_iff hq.prime).mp hdvd
    have hqx' : q = x := (Nat.prime_dvd_prime_iff_eq hq (hl x hx)).mp hqx
    subst hqx'
    rw [Ne, natCast_pow_eq_one_iff p a _ hp,
      ← powMod_eq 64 a ((p - 1) / q) p (lt_of_le_of_lt (Nat.div_le_self _ _) (by omega))]
    exact hd q hx

theorem prime_14149 : Nat.Prime 14149 := by norm_num

theorem prime_27552601 : Nat.Prime 27552601 := by norm_num

theorem prime_16373353565059 : Nat.Prime 16373353565059 := by
  apply lucas_cert 16373353565059 2 [2, 3, 7, 14149, 27552601] (by norm_num) (by norm_num)
  · intro x hx
    simp only [List.mem_cons, List.mem_singleton, List.not_mem_nil, or_false] at hx
    rcases hx with rfl | rfl | rfl | rfl | rfl
    · norm_num
    · norm_num
    · norm_num
    · exact prime_14149
    · exact prime_27552601
  · rfl
  · decide!
  · decide!

theorem prime_133672058505141677 : Nat.Prime 133672058505141677 := by
  apply lucas_cert 133672058505141677 2 [2, 2, 13, 157, 16373353565059] (by norm_num)
    (by norm_num)
  · intro x hx
    simp only [List.mem_cons, List.mem_singleton, List.not_mem_nil, or_false] at hx
    rcases hx with rfl | rfl | rfl | rfl | rfl
    · norm_num
    · norm_num
    · norm_num
    · norm_num
    · exact prime_16373353565059
  · rfl
  · decide!
  · decide!

theorem DEFAULT_PRIME_eq : DEFAULT_PRIME = 18446744073709551427 := by decide

theorem DEFAULT_PRIME_prime : Nat.Prime DEFAULT_PRIME := by
  rw [DEFAULT_PRIME_eq]
  apply lucas_cert 18446744073709551427 2 [2, 3, 23, 133672058505141677] (by norm_num)
    (by norm_num)
  · intro x hx
    simp only [List.mem_cons, List.mem_singleton, List.not_mem_nil, or_false] at hx
    rcases hx with rfl | rfl | rfl | rfl
    · norm_num
    · norm_num
    · norm_num
    · exact prime_133672058505141677
  · rfl
  · decide!
  · decide!

/-! ## The default generator -/

theorem New_error (prime seed0 off : Nat) (err : Error)
    (h : validate prime off seed0 = some err) :
    New prime seed0 off = .ok (zeroPRNG, some err) := by
  unfold New
  rw [h]

theorem New_of_ok (p seed0 off mm m : Nat) (hv : validate p off seed0 = none)
    (h1 : calculateMaxMask p = .ok mm) (h2 : calculateMask p seed0 mm = .ok m) :
    New p seed0 off = .ok (
      { prime := p, intermediateOffset := seed0, offset := off, maxMask := mm, mask := m,
        idx := 0 }, none) := by
  unfold New
  rw [hv]
  simp only []
  rw [h1]
  show (do let mask ← calculateMask p seed0 mm; pure _) = _
  rw [h2]
  rfl

theorem DEFAULT_PRIME_lt : DEFAULT_PRIME < 2 ^ 64 := by decide

theorem validate_default : validate DEFAULT_PRIME 0 DEFAULT_INTERMEDIATE_OFFSET = none := by
  rw [validate_eq _ _ _ DEFAULT_PRIME_lt]
  have h1 : DEFAULT_PRIME % 4 = 3 := by decide
  have h2 : ¬ (DEFAULT_INTERMEDIATE_OFFSET ≥ DEFAULT_PRIME) := by decide
  simp [h1, h2, DEFAULT_PRIME_prime]

theorem New_default : New DEFAULT_PRIME DEFAULT_INTERMEDIATE_OFFSET 0 = .ok (
    { prime := DEFAULT_PRIME, intermediateOffset := DEFAULT_INTERMEDIATE_OFFSET, offset := 0,
      maxMask := 2 ^ 63 - 1, mask := 5577006791947779222, idx := 0 }, none) :=
  New_of_ok _ _ _ _ _ validate_default (by decide!) (by decide!)

theorem Default_eq : Default = .ok
    { prime := DEFAULT_PRIME, intermediateOffset := DEFAULT_INTERMEDIATE_OFFSET, offset := 0,
      maxMask := 2 ^ 63 - 1, mask := 5577006791947779222, idx := 0 } := by
  unfold Default
  rw [New_default]
  rfl

/-! ## The stream of `Uint64` -/

theorem New_fields (p seed0 off : Nat) (g : QuadraticResiduePRNG)
    (h : New p seed0 off = .ok (g, none)) :
    g.prime = p ∧ g.intermediateOffset = seed0 ∧ g.offset = off ∧ g.idx = 0 ∧
      validate p off seed0 = none ∧ calculateMaxMask p = .ok g.maxMask ∧
      calculateMask p seed0 g.maxMask = .ok g.mask := by
  unfold New at h
  cases hv : validate p off seed0 with
  | some err => rw [hv] at h; simp at h
  | none =>
    rw [hv] at h
    simp only [] at h
    cases h1 : calculateMaxMask p with
    | error e => rw [h1] at h; cases h
    | ok mm =>
      rw [h1] at h
      cases h2 : calculateMask p seed0 mm with
      | error e =>
        simp only [bind, Except.bind, h2] at h
        cases h
      | ok m =>
        simp only [bind, Except.bind, h2, pure, Except.pure] at h
        injection h with h3
        injection h3 with h4 _
        subst h4
        exact ⟨rfl, rfl, rfl, rfl, rfl, rfl, h2⟩

/-- Method `Index` returns on every generator and every index. -/
theorem Index_total (g : QuadraticResiduePRNG) (i : Nat) :
    ∃ v e, Index g i = .ok (v, e) ∧ (e = none ↔ i < g.prime) := by
  by_cases hi : i < g.prime
  · obtain ⟨q, r, q2, -, -, -, h⟩ := Index_ok g i hi
    exact ⟨_, none, h, by simp [hi]⟩
  · exact ⟨i, _, Index_error g i (by omega), by simp [hi]⟩

theorem Index_idx (g : QuadraticResiduePRNG) (j i : Nat) :
    Index { g with idx := j } i = Index g i := rfl

theorem Uint64_ok (g : QuadraticResiduePRNG) (v : Nat) (e : Option Error)
    (h : Index g g.idx = .ok (v, e)) :
    Uint64 g = .ok (v, { g with idx := add64 g.idx 1 }) := by
  unfold Uint64
  rw [h]
  rfl

/-- Any number of `Uint64` calls returns, and changes no field but `idx`. -/
theorem callUint64_frame : ∀ (n : Nat) (g : QuadraticResiduePRNG),
    ∃ outs j, callUint64 n g = .ok (outs, { g with idx := j }) := by
  intro n
  induction n with
  | zero => intro g; exact ⟨[], g.idx, rfl⟩
  | succ n ih =>
    intro g
    obtain ⟨v, e, hI, -⟩ := Index_total g g.idx
    obtain ⟨outs, j, hc⟩ := ih { g with idx := add64 g.idx 1 }
    refine ⟨v :: outs, j, ?_⟩
    unfold callUint64
    rw [Uint64_ok g v e hI]
    show (do let rest ← callUint64 n { g with idx := add64 g.idx 1 };
             pure (v :: rest.1, rest.2)) = _
    rw [hc]
    rfl

/-- The outputs of `n` calls of `Uint64` are the values of `Index` at the
successive counter values, as long as the counter does not wrap. -/
theorem callUint64_values : ∀ (n : Nat) (g : QuadraticResiduePRNG), g.idx + n < 2 ^ 64 →
    ∃ outs g', callUint64 n g = .ok (outs, g') ∧ outs.length = n ∧
      ∀ k, k < n → ∃ v e, Index g (g.idx + k) = .ok (v, e) ∧ outs[k]? = some v := by
  intro n
  induction n with
  | zero => intro g _; exact ⟨[], g, rfl, rfl, fun k hk => absurd hk (by omega)⟩
  | succ n ih =>
    intro g hg
    obtain ⟨v, e, hI, -⟩ := Index_total g g.idx
    have hidx : add64 g.idx 1 = g.idx + 1 := add64_eq _ _ (by omega)
    obtain ⟨outs, g', hc, hlen, hval⟩ := ih { g with idx := add64 g.idx 1 }
      (by show add64 g.idx 1 + n < 2 ^ 64; rw [hidx]; omega)
    refine ⟨v :: outs, g', ?_, by simp [hlen], ?_⟩
    · unfold callUint64
      rw [Uint64_ok g v e hI]
      show (do let rest ← callUint64 n { g with idx := add64 g.idx 1 };
               pure (v :: rest.1, rest.2)) = _
      rw [hc]
      rfl
    · intro k hk
      cases k with
      | zero => exact ⟨v, e, hI, by simp⟩
      | succ k =>
        obtain ⟨w, e', hw, hget⟩ := hval k (by omega)
        rw [Index_idx] at hw
        have hw' : Index g (add64 g.idx 1 + k) = .ok (w, e') := hw
        rw [hidx] at hw'
        refine ⟨w, e', ?_, by simpa using hget⟩
        rw [← hw']
        congr 1
        omega

/-! ## Small generators -/

theorem New_seven : New 7 0 0 = .ok (
    { prime := 7, intermediateOffset := 0, offset := 0, maxMask := 3, mask := 2, idx := 0 },
    none) :=
  New_of_ok 7 0 0 3 2 (by rw [validate_eq _ _ _ (by norm_num)]; norm_num) (by decide)
    (by decide)

theorem New_eleven (seed0 : Nat) (m : Nat) (hs : seed0 < 11)
    (hm : calculateMask 11 seed0 7 = .ok m) : New 11 seed0 0 = .ok (
    { prime := 11, intermediateOffset := seed0, offset := 0, maxMask := 7, mask := m,
      idx := 0 }, none) :=
  New_of_ok 11 seed0 0 7 m
    (by rw [validate_eq _ _ _ (by norm_num)]
        have : ¬ (seed0 ≥ 11) := by omega
        simp only [this]; norm_num)
    (by decide) hm

/-! ## Reseeding -/

theorem toUint64_eq (s : Int) (h0 : 0 ≤ s) (h1 : s < 2 ^ 64) : toUint64 s = s.toNat := by
  unfold toUint64
  rw [Int.emod_eq_of_lt h0 (by omega)]

theorem Seed_nonneg (g : QuadraticResiduePRNG) (s : Int) (h0 : 0 ≤ s) :
    Seed g s = { g with intermediateOffset := toUint64 s, idx := 0 } := by
  unfold Seed
  rw [if_pos h0]

theorem Seed_intermediateOffset (g g0 : QuadraticResiduePRNG) (s : Int) :
    (Seed g s).intermediateOffset = (Seed g0 s).intermediateOffset := by
  unfold Seed
  split <;> rfl

theorem Seed_frame (g : QuadraticResiduePRNG) (s : Int) :
    (Seed g s).prime = g.prime ∧ (Seed g s).offset = g.offset ∧
      (Seed g s).maxMask = g.maxMask ∧ (Seed g s).mask = g.mask ∧ (Seed g s).idx = 0 := by
  unfold Seed
  split <;> exact ⟨rfl, rfl, rfl, rfl, rfl⟩

theorem calculateMask_eleven_zero : calculateMask 11 0 7 = .ok 6 := by decide

theorem calculateMask_eleven_one : calculateMask 11 1 7 = .ok 4 := by decide

theorem calculateMask_eleven_three : calculateMask 11 3 7 = .ok 6 := by decide

/-! ## Reachable states -/

/-- Every call returns; it keeps `prime`, and keeps `intermediateOffset` unless
it is a `Seed` call, which stores the value determined by the seed alone. -/
theorem step_ok (g : QuadraticResiduePRNG) (c : Call) :
    ∃ g', step g c = .ok g' ∧ g'.prime = g.prime ∧
      ((∃ s, c = .seed s ∧ g' = Seed g s) ∨
        ((∀ s, c ≠ .seed s) ∧ g'.intermediateOffset = g.intermediateOffset)) := by
  cases c with
  | uint64 =>
    obtain ⟨v, e, hI, -⟩ := Index_total g g.idx
    refine ⟨{ g with idx := add64 g.idx 1 }, ?_, rfl, Or.inr ⟨fun _ h => Call.noConfusion h, rfl⟩⟩
    simp only [step, Uint64_ok g v e hI]
    rfl
  | int63 =>
    obtain ⟨v, e, hI, -⟩ := Index_total g g.idx
    refine ⟨{ g with idx := add64 g.idx 1 }, ?_, rfl, Or.inr ⟨fun _ h => Call.noConfusion h, rfl⟩⟩
    simp only [step, Int63, Uint64_ok g v e hI]
    rfl
  | index i =>
    obtain ⟨v, e, hI, -⟩ := Index_total g i
    refine ⟨g, ?_, rfl, Or.inr ⟨fun _ h => Call.noConfusion h, rfl⟩⟩
    simp only [step, hI]
    rfl
  | seed s =>
    exact ⟨Seed g s, rfl, (Seed_frame g s).1, Or.inl ⟨s, rfl, rfl⟩⟩

theorem run_invariant (p : Nat) (g0 : QuadraticResiduePRNG) :
    ∀ (calls : List Call) (g : QuadraticResiduePRNG), g.prime = p → g.intermediateOffset < p →
      (∀ s, Call.seed s ∈ calls → (Seed g0 s).intermediateOffset < p) →
      ∃ g', run calls g = .ok g' ∧ g'.prime = p ∧ g'.intermediateOffset < g'.prime := by
  intro calls
  induction calls with
  | nil => intro g hp hs _; exact ⟨g, rfl, hp, by rw [hp]; exact hs⟩
  | cons c cs ih =>
    intro g hp hs hseeds
    obtain ⟨g1, hstep, hp1, hcase⟩ := step_ok g c
    have hs1 : g1.intermediateOffset < p := by
      rcases hcase with ⟨s, hc, hg1⟩ | ⟨-, h⟩
      · rw [hg1, Seed_intermediateOffset g g0 s]
        exact hseeds s (by rw [hc]; exact List.mem_cons_self _ _)
      · rw [h]; exact hs
    obtain ⟨g', hrun, hp', hs'⟩ := ih g1 (by rw [hp1, hp]) hs1
      (fun s hmem => hseeds s (List.mem_cons_of_mem _ hmem))
    refine ⟨g', ?_, hp', hs'⟩
    unfold run
    rw [hstep]
    exact hrun

/-! ## Further facts about the operations -/

theorem permuteQPR_offset (g : QuadraticResiduePRNG) (k i : Nat) :
    permuteQPR { g with offset := k } i = permuteQPR g i := rfl

theorem applyMask_offset (g : QuadraticResiduePRNG) (k i : Nat) :
    applyMask { g with offset := k } i = applyMask g i := rfl

theorem INT63_MASK_eq : INT63_MASK = 2 ^ 63 - 1 := by decide

theorem properDivisors_spec : ∀ j, j < 47 →
    1 < properDivisors.getD j 0 ∧
      properDivisors.getD j 0 < DEFAULT_PRIME + 4 * (j + 1) ∧
      (DEFAULT_PRIME + 4 * (j + 1)) % properDivisors.getD j 0 = 0 := by
  decide!

theorem not_prime_above_default (n : Nat) (hlo : DEFAULT_PRIME < n) (hhi : n < 2 ^ 64)
    (h4 : n % 4 = 3) : ∃ d, 1 < d ∧ d < n ∧ d ∣ n := by
  have hP : DEFAULT_PRIME = 2 ^ 64 - 189 := by decide
  have hj : (n - DEFAULT_PRIME) / 4 - 1 < 47 := by omega
  have hn : n = DEFAULT_PRIME + 4 * ((n - DEFAULT_PRIME) / 4 - 1 + 1) := by omega
  obtain ⟨h1, h2, h3⟩ := properDivisors_spec _ hj
  rw [← hn] at h2 h3
  exact ⟨_, h1, h2, Nat.dvd_of_mod_eq_zero h3⟩

theorem sq_sub_mod (p i : Nat) (hi : i ≤ p) : (p - i) * (p - i) % p = i * i % p := by
  obtain ⟨j, rfl⟩ : ∃ j, p = i + j := ⟨p - i, by omega⟩
  have h : (i + j - i) * (i + j - i) + (i + j) * (2 * i) = i * i + (i + j) * (i + j) := by
    rw [Nat.add_sub_cancel_left]; ring
  have h1 : ((i + j - i) * (i + j - i) + (i + j) * (2 * i)) % (i + j)
      = (i + j - i) * (i + j - i) % (i + j) := Nat.add_mul_mod_self_left _ _ _
  have h2 : (i * i + (i + j) * (i + j)) % (i + j) = i * i % (i + j) :=
    Nat.add_mul_mod_self_left _ _ _
  rw [← h1, h, h2]

theorem fold_zero (p : Nat) : fold p 0 = 0 := by
  simp [fold]

theorem fold_add_fold_sub (p i : Nat) (hp : p.Prime) (h4 : p % 4 = 3)
    (hi : i < p) : fold p i + fold p (p - i) = p := by
  have hr : i * i % p < p := Nat.mod_lt _ hp.pos
  have hs := sq_sub_mod p i (by omega)
  unfold fold
  by_cases h : i ≤ p / 2
  · have h' : ¬ (p - i ≤ p / 2) := by omega
    rw [if_pos h, if_neg h', hs]
    omega
  · have h' : p - i ≤ p / 2 := by omega
    rw [if_neg h, if_pos h', hs]
    omega

/-- What a successful `New` on `uint64` arguments says about its arguments. -/
theorem New_inv (p seed0 off : Nat) (g : QuadraticResiduePRNG) (h64 : p < 2 ^ 64)
    (hnew : New p seed0 off = .ok (g, none)) :
    p.Prime ∧ p % 4 = 3 ∧ seed0 < p ∧ p ≠ 3 := by
  obtain ⟨-, -, -, -, hv, hmm, hmask⟩ := New_fields p seed0 off g hnew
  rw [validate_eq p off seed0 h64] at hv
  by_cases h4 : p % 4 ≠ 3
  · rw [if_pos h4] at hv; cases hv
  · rw [if_neg h4] at hv
    by_cases hs : seed0 ≥ p
    · rw [if_pos hs] at hv; cases hv
    · rw [if_neg hs] at hv
      by_cases hp : ¬ p.Prime
      · rw [if_pos hp] at hv; cases hv
      · refine ⟨not_not.mp hp, not_not.mp h4, by omega, ?_⟩
        intro h3
        subst h3
        have h1 : calculateMaxMask 3 = .ok 1 := by decide
        rw [h1] at hmm
        have h2 : g.maxMask = 1 := (Except.ok.inj hmm).symm
        rw [h2] at hmask
        have h5 : calculateMask 3 seed0 1 = .error .divideByZero := rfl
        rw [h5] at hmask
        cases hmask

/-- The derived fields of a generator that `New` returns. -/
theorem New_masks (p seed0 off : Nat) (g : QuadraticResiduePRNG) (h64 : p < 2 ^ 64)
    (hnew : New p seed0 off = .ok (g, none)) :
    ∃ k, 2 ≤ k ∧ k ≤ 63 ∧ k + 1 = Len64 (p - 1) ∧ 2 ^ k < p ∧ g.prime = p ∧
      g.maxMask = 2 ^ k - 1 ∧ Len64 g.maxMask = k ∧ 2 ^ (k - 1) ≤ g.mask ∧
      g.mask < 2 ^ k - 1 ∧ g.mask = 2 ^ (k - 1) + add64 p seed0 % (2 ^ (k - 1) - 1) := by
  obtain ⟨hp, h4, hs, h3⟩ := New_inv p seed0 off g h64 hnew
  obtain ⟨k, m, hk2, hk, hk1, hlt, -, hlo, hhi, hm, hnew'⟩ :=
    New_ok p seed0 off hp h4 h3 h64 hs
  rw [hnew] at hnew'
  have hg := (Prod.mk.inj (Except.ok.inj hnew')).1
  subst hg
  have hklt : (2 : Nat) ^ k < 2 ^ 64 := Nat.pow_lt_pow_right (by norm_num) (by omega)
  have hsplit : (2 : Nat) ^ k = 2 ^ (k - 1) * 2 := by
    rw [← pow_succ]; congr 1; omega
  have hpos : 0 < (2 : Nat) ^ (k - 1) := by positivity
  have hlen : Len64 (2 ^ k - 1) = k :=
    Len64_eq _ k (by omega) (by omega) (by omega) (by omega)
  exact ⟨k, hk2, hk, hk1, hlt, rfl, rfl, hlen, hlo, hhi, hm⟩

theorem applyMask_inj_of_invol (g : QuadraticResiduePRNG) (k x y : Nat)
    (hmax : g.maxMask = 2 ^ k - 1) (hmask : g.mask < 2 ^ k)
    (h : applyMask g x = applyMask g y) : x = y := by
  have h' := congrArg (applyMask g) h
  rwa [applyMask_applyMask g k x hmax hmask, applyMask_applyMask g k y hmax hmask] at h'

/-- After `Seed` with a seed in `[0, 2 ^ 63)` a generator with a prime below
`2 ^ 32` is still a permutation of `[0, prime)`. -/
theorem Seed_nonneg_full_period (p seed0 : Nat) (g : QuadraticResiduePRNG) (s : Int)
    (h32 : p < 2 ^ 32) (hnew : New p seed0 0 = .ok (g, none)) (hs0 : 0 ≤ s)
    (hs : s < 2 ^ 63) :
    ∃ f, (∀ i, i < p → Index (Seed g s) i = .ok (f i, none)) ∧
      (∀ i j, i < p → j < p → f i = f j → i = j) ∧
      (Finset.range p).image f = Finset.range p := by
  obtain ⟨hp, h4, -, -⟩ := New_inv p seed0 0 g (by omega) hnew
  obtain ⟨k, -, -, -, hk, hprime, hmax, -, -, hmask, -⟩ :=
    New_masks p seed0 0 g (by omega) hnew
  obtain ⟨-, -, hoff, -, -, -, -⟩ := New_fields p seed0 0 g hnew
  have hseed : Seed g s = { g with intermediateOffset := toUint64 s, idx := 0 } :=
    Seed_nonneg g s hs0
  have hto : toUint64 s < 2 ^ 63 := by
    rw [toUint64_eq s hs0 (by omega)]; omega
  subst hprime
  have hmask' : g.mask < 2 ^ k := by omega
  have hlt : ∀ i, indexMap (Seed g s) i < g.prime := by
    intro i
    rw [hseed]
    exact indexMap_lt _ i hp k hmax hmask' hk
  have hinj : ∀ i j, i < g.prime → j < g.prime →
      indexMap (Seed g s) i = indexMap (Seed g s) j → i = j := by
    intro i j hi hj h
    rw [hseed] at h
    exact indexMap_inj { g with intermediateOffset := toUint64 s, idx := 0 } i j hp h4 k hmax
      hmask' hk hi hj h
  refine ⟨indexMap (Seed g s), ?_, hinj, image_eq_range _ _ (fun i _ => hlt i) hinj⟩
  intro i hi
  have hI := Index_small { g with intermediateOffset := toUint64 s, idx := 0 } i hp h32 hto k
    hmax hmask' hk hi
  rw [← hseed] at hI
  rw [hI]
  have hoff' : (Seed g s).offset = 0 := by rw [(Seed_frame g s).2.1, hoff]
  have := hlt i
  rw [hoff', add64_eq _ _ (by omega), Nat.zero_add]

/-! ## Claims -/

/-- C1: for a prime `p` with `p % 4 = 3` and `7 ≤ p < 2 ^ 32` and an intermediate
offset below `p`, `New p seed0 0` returns a generator without error, `Index`
returns no error on every index below `p`, its values there are pairwise
distinct, and they are exactly the numbers below `p`. -/
theorem full_period_small_primes (p seed0 : Nat) (hp : p.Prime) (h4 : p % 4 = 3)
    (h7 : 7 ≤ p) (h32 : p < 2 ^ 32) (hs : seed0 < p) :
    ∃ g f, New p seed0 0 = .ok (g, none) ∧
      (∀ i, i < p → Index g i = .ok (f i, none)) ∧
      (∀ i j, i < p → j < p → f i = f j → i = j) ∧
      (Finset.range p).image f = Finset.range p := by
  obtain ⟨k, m, -, -, -, hk, -, -, hm, -, hnew⟩ :=
    New_ok p seed0 0 hp h4 (by omega) (by omega) hs
  have hm' : m < 2 ^ k := by omega
  have hlt : ∀ i, indexMap
      { prime := p, intermediateOffset := seed0, offset := 0, maxMask := 2 ^ k - 1,
        mask := m, idx := 0 } i < p :=
    fun i => indexMap_lt _ i hp k rfl hm' hk
  have hinj : ∀ i j, i < p → j < p → indexMap
      { prime := p, intermediateOffset := seed0, offset := 0, maxMask := 2 ^ k - 1,
        mask := m, idx := 0 } i = indexMap
      { prime := p, intermediateOffset := seed0, offset := 0, maxMask := 2 ^ k - 1,
        mask := m, idx := 0 } j → i = j :=
    fun i j hi hj h => indexMap_inj _ i j hp h4 k rfl hm' hk hi hj h
  refine ⟨_, _, hnew, ?_, hinj, image_eq_range _ p (fun i _ => hlt i) hinj⟩
  intro i hi
  rw [Index_small _ i hp h32 (show seed0 < 2 ^ 63 by omega) k rfl hm' hk hi]
  show Except.ok (add64 0 _, none) = _
  have := hlt i
  rw [add64_eq _ _ (by omega), Nat.zero_add]

theorem full_period_small_primes_witness :
    ∃ g f, New 11 4 0 = .ok (g, none) ∧
      (∀ i, i < 11 → Index g i = .ok (f i, none)) ∧
      (∀ i j, i < 11 → j < 11 → f i = f j → i = j) ∧
      (Finset.range 11).image f = Finset.range 11 :=
  full_period_small_primes 11 4 (by norm_num) (by decide) (by decide) (by decide) (by decide)

/-- C2: the default generator, which `New` returns without error, repeats a
value inside one period: the distinct indices `100` and `2 ^ 63 - 100`, both
below the prime, give the same output `14659397776`, because the product
`i * i` wraps modulo `2 ^ 64`. -/
theorem default_generator_repeats :
    ∃ g, New DEFAULT_PRIME DEFAULT_INTERMEDIATE_OFFSET 0 = .ok (g, none) ∧
      Default = .ok g ∧ g.offset = 0 ∧
      (100 : Nat) ≠ 2 ^ 63 - 100 ∧ 100 < g.prime ∧ 2 ^ 63 - 100 < g.prime ∧
      Index g 100 = .ok (14659397776, none) ∧
      Index g (2 ^ 63 - 100) = .ok (14659397776, none) :=
  ⟨_, New_default, Default_eq, rfl, by decide, by decide, by decide, by decide!, by decide!⟩

/-- C3: on `uint64` arguments `validate` reports the first failing check in
the order "3 mod 4", "intermediate offset below the prime", "prime", and `nil`
when none fails; it returns `nil` exactly when all three hold, whatever
`offset` is; and `New` hands the error of `validate` on. -/
theorem validate_first_failure_wins (prime offset seed0 : Nat) (h : prime < 2 ^ 64) :
    (validate prime offset seed0 =
      if prime % 4 ≠ 3 then some (.notThreeModFour prime)
      else if seed0 ≥ prime then some (.invalidIntermediateOffset seed0)
      else if ¬ prime.Prime then some (.notPrime prime)
      else none) ∧
    (validate prime offset seed0 = none ↔ prime % 4 = 3 ∧ seed0 < prime ∧ prime.Prime) ∧
    (∀ err, validate prime offset seed0 = some err →
      New prime seed0 offset = .ok (zeroPRNG, some err)) := by
  refine ⟨validate_eq prime offset seed0 h, ?_, fun err he => New_error _ _ _ err he⟩
  rw [validate_eq prime offset seed0 h]
  by_cases h4 : prime % 4 = 3 <;> by_cases hs : seed0 < prime <;>
    by_cases hp : prime.Prime <;> simp [h4, hs, hp, Nat.not_le.mpr, Nat.not_lt.mp]

theorem validate_first_failure_wins_witness :
    validate 21 7 30 = some (.notThreeModFour 21) ∧
    (validate 21 7 30 = none ↔ 21 % 4 = 3 ∧ 30 < 21 ∧ Nat.Prime 21) ∧
    (∀ err, validate 21 7 30 = some err → New 21 30 7 = .ok (zeroPRNG, some err)) := by
  have h := validate_first_failure_wins 21 7 30 (by norm_num)
  exact ⟨by rw [h.1]; decide, h.2.1, h.2.2⟩

/-- C4: `New 3 0 0` passes validation (3 is a prime, 3 mod 4 = 3, 0 < 3) and
then stops with a division by zero in `calculateMask`: `maxMask = 1`,
`min = 1`, so the divisor `maxMask - min` is `0`. -/
theorem New_three_panics :
    (3 : Nat) < 2 ^ 64 ∧ validate 3 0 0 = none ∧ calculateMaxMask 3 = .ok 1 ∧
      shl64 1 ((Len64 1 : Int) - 1) = .ok 1 ∧ sub64 1 1 = 0 ∧
      calculateMask 3 0 1 = .error .divideByZero ∧
      New 3 0 0 = .error .divideByZero := by
  have hv : validate 3 0 0 = none := by
    rw [validate_eq _ _ _ (by norm_num)]
    simp [Nat.prime_three]
  refine ⟨by norm_num, hv, by decide, by decide, by decide, by decide, ?_⟩
  unfold New
  rw [hv]
  decide

/-- C5: `Default` does not panic: the default prime is a prime congruent to 3
modulo 4, the default intermediate offset is below it, the divisor of the mask
computation is not zero, `New` returns a `nil` error, and the generator has
offset 0 and idx 0. -/
theorem Default_never_fails :
    DEFAULT_PRIME = 2 ^ 64 - 189 ∧ DEFAULT_PRIME % 4 = 3 ∧
      DEFAULT_INTERMEDIATE_OFFSET < DEFAULT_PRIME ∧ DEFAULT_PRIME.Prime ∧
      validate DEFAULT_PRIME 0 DEFAULT_INTERMEDIATE_OFFSET = none ∧
      calculateMaxMask DEFAULT_PRIME = .ok (2 ^ 63 - 1) ∧
      shl64 1 ((Len64 (2 ^ 63 - 1) : Int) - 1) = .ok (2 ^ 62) ∧
      sub64 (2 ^ 63 - 1) (2 ^ 62) ≠ 0 ∧
      ∃ g, New DEFAULT_PRIME DEFAULT_INTERMEDIATE_OFFSET 0 = .ok (g, none) ∧
        Default = .ok g ∧ g.offset = 0 ∧ g.idx = 0 := by
  exact ⟨by decide, by decide, by decide, DEFAULT_PRIME_prime, validate_default, by decide!,
    by decide!, by decide, _, New_default, Default_eq, rfl, rfl⟩

/-- C6: the stream does not cycle after a full period.  On the generator
`New 7 0 0` call number 7 of `Uint64` returns 7, not the output 4 of call
number 0: `Index 7` returns the index itself next to its error, not the value
of `Index (7 mod 7)`. -/
theorem stream_does_not_cycle :
    ∃ g, New 7 0 0 = .ok (g, none) ∧
      callUint64 8 g = .ok ([4, 2, 5, 0, 3, 1, 6, 7], { g with idx := 8 }) ∧
      Index g 7 = .ok (7, some (.invalidIndex 7)) ∧ Index g (7 % 7) = .ok (4, none) :=
  ⟨_, New_seven, by decide, by decide, by decide⟩

/-- C7: on a generator freshly returned without error by `New` (on `uint64`
arguments), the first `N ≤ prime` calls of `Uint64` return, in order, the
values of `Index 0`, ..., `Index (N - 1)`, each without error. -/
theorem stream_matches_index (p seed0 off N : Nat) (g : QuadraticResiduePRNG)
    (hp : p < 2 ^ 64) (hnew : New p seed0 off = .ok (g, none)) (hN : N ≤ g.prime) :
    ∃ outs g', callUint64 N g = .ok (outs, g') ∧ outs.length = N ∧
      ∀ k, k < N → ∃ v, outs[k]? = some v ∧ Index g k = .ok (v, none) := by
  obtain ⟨hprime, -, -, hidx, -, -, -⟩ := New_fields p seed0 off g hnew
  obtain ⟨outs, g', hc, hlen, hval⟩ := callUint64_values N g (by omega)
  refine ⟨outs, g', hc, hlen, ?_⟩
  intro k hk
  obtain ⟨v, e, hI, hget⟩ := hval k hk
  rw [hidx, Nat.zero_add] at hI
  obtain ⟨v', e', hI', he'⟩ := Index_total g k
  have hnone : e' = none := he'.mpr (by omega)
  rw [hI'] at hI
  injection hI with h1
  injection h1 with h2 h3
  subst h2 h3 hnone
  exact ⟨v', hget, hI'⟩

theorem stream_matches_index_witness :
    ∃ outs g', callUint64 5
        { prime := 7, intermediateOffset := 0, offset := 0, maxMask := 3, mask := 2,
          idx := 0 } = .ok (outs, g') ∧ outs.length = 5 ∧
      ∀ k, k < 5 → ∃ v, outs[k]? = some v ∧ Index
        { prime := 7, intermediateOffset := 0, offset := 0, maxMask := 3, mask := 2,
          idx := 0 } k = .ok (v, none) :=
  stream_matches_index 7 0 0 5 _ (by norm_num) New_seven (by decide)

/-- C8 fails as stated: on the generator `New 11 0 0` (mask 6), `Seed 1`
followed by `Uint64` returns 6, but the fresh generator `New 11 1 0` (mask 4)
returns 3 at index 0. -/
theorem reseed_differs_from_fresh :
    ∃ g g2, New 11 0 0 = .ok (g, none) ∧ New 11 (toUint64 1) 0 = .ok (g2, none) ∧
      g.mask = 6 ∧ g2.mask = 4 ∧
      Uint64 (Seed g 1) = .ok (6, { g with intermediateOffset := 1, idx := 1 }) ∧
      Index g2 0 = .ok (3, none) ∧ Uint64 g2 = .ok (3, { g2 with idx := 1 }) :=
  ⟨_, _, New_eleven 0 6 (by norm_num) calculateMask_eleven_zero,
    New_eleven 1 4 (by norm_num) calculateMask_eleven_one, rfl, rfl, by decide, by decide,
    by decide⟩

/-- C8 as amended: after any number of `Uint64` calls on a generator `g`
returned without error by `New p seed0 off`, `Seed s` with `0 ≤ s < p` followed
by `Uint64` returns the value of `Index 0` on the generator that has `s` as
intermediate offset and keeps the `prime`, `offset`, `maxMask` and `mask` of
`g`; this is the value of `Index 0` on the fresh generator `New p s off`
whenever that generator has the same mask as `g`. -/
theorem reseed_first_output (p seed0 off n : Nat) (g gn : QuadraticResiduePRNG)
    (outs : List Nat) (s : Int) (hp : p < 2 ^ 64) (hnew : New p seed0 off = .ok (g, none))
    (hcalls : callUint64 n g = .ok (outs, gn)) (hs0 : 0 ≤ s) (hs : s < p) :
    ∃ v st, Uint64 (Seed gn s) = .ok (v, st) ∧
      Index { g with intermediateOffset := toUint64 s } 0 = .ok (v, none) ∧
      ∀ g2, New p (toUint64 s) off = .ok (g2, none) → g2.mask = g.mask →
        Index g2 0 = .ok (v, none) := by
  obtain ⟨hprime, hio, hoff, hidx, -, hmm, -⟩ := New_fields p seed0 off g hnew
  obtain ⟨outs', j, hc⟩ := callUint64_frame n g
  rw [hc] at hcalls
  have hgn : gn = { g with idx := j } := by
    exact (Prod.mk.inj (Except.ok.inj hcalls)).2.symm
  have hseed : Seed gn s = { g with intermediateOffset := toUint64 s, idx := 0 } := by
    rw [Seed_nonneg gn s hs0, hgn]
  have hpos : 0 < ({ g with intermediateOffset := toUint64 s } : QuadraticResiduePRNG).prime := by
    show 0 < g.prime
    rw [hprime]; omega
  obtain ⟨v, e, hI, he⟩ := Index_total { g with intermediateOffset := toUint64 s } 0
  have hnone : e = none := he.mpr hpos
  subst hnone
  have hU := Uint64_ok { g with intermediateOffset := toUint64 s, idx := 0 } v none hI
  rw [← hseed] at hU
  refine ⟨v, _, hU, hI, ?_⟩
  · intro g2 hnew2 hmask
    obtain ⟨hprime2, hio2, hoff2, hidx2, -, hmm2, -⟩ := New_fields p (toUint64 s) off g2 hnew2
    have hmax : g2.maxMask = g.maxMask := by
      rw [hmm] at hmm2
      exact (Except.ok.inj hmm2).symm
    have hg2 : g2 = { g with intermediateOffset := toUint64 s } := by
      cases g; cases g2
      simp only [QuadraticResiduePRNG.mk.injEq] at *
      subst hprime hprime2 hoff hoff2 hidx hidx2 hmax hmask hio2
      exact ⟨rfl, rfl, rfl, rfl, rfl, rfl⟩
    rw [hg2]
    exact hI

theorem reseed_first_output_witness :
    ∃ v st, Uint64 (Seed
        { prime := 11, intermediateOffset := 0, offset := 0, maxMask := 7, mask := 6,
          idx := 2 } 3) = .ok (v, st) ∧
      Index { ({ prime := 11, intermediateOffset := 0, offset := 0, maxMask := 7, mask := 6,
                 idx := 0 } : QuadraticResiduePRNG) with intermediateOffset := toUint64 3 } 0
        = .ok (v, none) ∧
      ∀ g2, New 11 (toUint64 3) 0 = .ok (g2, none) →
        g2.mask = ({ prime := 11, intermediateOffset := 0, offset := 0, maxMask := 7,
                     mask := 6, idx := 0 } : QuadraticResiduePRNG).mask →
        Index g2 0 = .ok (v, none) :=
  reseed_first_output 11 0 0 2 _ _ [8, 6] 3 (by norm_num)
    (New_eleven 0 6 (by norm_num) calculateMask_eleven_zero) (by decide) (by decide)
    (by decide)

/-- C9: for an `int64` seed, `Seed` stores `uint64(seed)` when `seed ≥ 0` and
`(2 ^ 64 - 1) - |seed|` when `seed < 0` (also for `seed = -2 ^ 63`), sets `idx`
to 0 and leaves `prime`, `offset`, `maxMask` and `mask` unchanged. -/
theorem Seed_postcondition (g : QuadraticResiduePRNG) (seed : Int)
    (hlo : -2 ^ 63 ≤ seed) (hhi : seed < 2 ^ 63) :
    (Seed g seed).intermediateOffset
        = (if seed ≥ 0 then seed.toNat else 2 ^ 64 - 1 - seed.natAbs) ∧
      (Seed g seed).idx = 0 ∧ (Seed g seed).prime = g.prime ∧
      (Seed g seed).offset = g.offset ∧ (Seed g seed).maxMask = g.maxMask ∧
      (Seed g seed).mask = g.mask := by
  obtain ⟨h1, h2, h3, h4, h5⟩ := Seed_frame g seed
  refine ⟨?_, h5, h1, h2, h3, h4⟩
  unfold Seed
  by_cases h0 : seed ≥ 0
  · rw [if_pos h0, if_pos h0]
    exact toUint64_eq seed h0 (by omega)
  · rw [if_neg h0, if_neg h0]
    show sub64 MaxUint64 (toUint64 (toInt64 (-1 * seed))) = _
    unfold sub64 MaxUint64 toUint64 toInt64
    omega

theorem Seed_postcondition_witness :
    (Seed zeroPRNG (-2 ^ 63)).intermediateOffset
        = (if (-2 ^ 63 : Int) ≥ 0 then (-2 ^ 63 : Int).toNat
           else 2 ^ 64 - 1 - (-2 ^ 63 : Int).natAbs) ∧
      (Seed zeroPRNG (-2 ^ 63)).idx = 0 ∧ (Seed zeroPRNG (-2 ^ 63)).prime = zeroPRNG.prime ∧
      (Seed zeroPRNG (-2 ^ 63)).offset = zeroPRNG.offset ∧
      (Seed zeroPRNG (-2 ^ 63)).maxMask = zeroPRNG.maxMask ∧
      (Seed zeroPRNG (-2 ^ 63)).mask = zeroPRNG.mask :=
  Seed_postcondition zeroPRNG (-2 ^ 63) (by norm_num) (by norm_num)

/-- C10 fails as stated: from the generator `New 7 0 0`, the call `Seed 7`
reaches a state whose intermediate offset 7 is not below the prime 7. -/
theorem seed_breaks_offset_invariant :
    ∃ g g', New 7 0 0 = .ok (g, none) ∧ run [.seed 7] g = .ok g' ∧
      g'.intermediateOffset = 7 ∧ g'.prime = 7 ∧ ¬ (g'.intermediateOffset < g'.prime) :=
  ⟨_, _, New_seven, rfl, by decide, rfl, by decide⟩

/-- C10 as amended: every sequence of `Uint64`, `Int63`, `Index` and `Seed`
calls on a generator returned without error by `New` returns, and the state it
reaches satisfies `intermediateOffset < prime`, provided each `Seed` call in it
stores a value below the prime (`uint64(seed)` for `seed ≥ 0`,
`MaxUint64 - |seed|` for `seed < 0`); `Seed` itself makes no such check. -/
theorem offset_invariant_reachable (p seed0 off : Nat) (g : QuadraticResiduePRNG)
    (calls : List Call) (hnew : New p seed0 off = .ok (g, none))
    (hseeds : ∀ s, Call.seed s ∈ calls → (Seed g s).intermediateOffset < p) :
    ∃ g', run calls g = .ok g' ∧ g'.prime = p ∧ g'.intermediateOffset < g'.prime := by
  obtain ⟨hprime, hio, -, -, hv, -, -⟩ := New_fields p seed0 off g hnew
  have hlt : seed0 < p := by
    unfold validate at hv
    by_contra hcon
    have hge : seed0 ≥ p := by omega
    by_cases h4 : p % 4 ≠ 3
    · rw [if_pos h4] at hv; cases hv
    · rw [if_neg h4, if_pos hge] at hv; cases hv
  exact run_invariant p g calls g hprime (by rw [hio]; exact hlt) hseeds

theorem offset_invariant_reachable_witness :
    ∃ g', run [.uint64, .seed 5, .int63, .index 9, .seed 3, .uint64]
        { prime := 7, intermediateOffset := 0, offset := 0, maxMask := 3, mask := 2,
          idx := 0 } = .ok g' ∧ g'.prime = 7 ∧ g'.intermediateOffset < g'.prime :=
  offset_invariant_reachable 7 0 0 _ _ New_seven (by
    intro s hs
    simp only [List.mem_cons, List.mem_singleton, List.not_mem_nil, or_false, Call.seed.injEq,
      false_or, reduceCtorEq] at hs
    rcases hs with rfl | rfl <;> decide)

/-- C11: `Index` returns a non-nil error exactly when `i ≥ prime`, and then
the value next to the error is `i` itself; for `i < prime` the error is nil and
the value is `offset + permuteQPR(applyMask((permuteQPR(i) +
intermediateOffset) % prime))` in `uint64` arithmetic; an `Index` call leaves
the generator as it was. -/
theorem Index_fails_exactly_out_of_range (g : QuadraticResiduePRNG) (i : Nat) :
    (∃ v e, Index g i = .ok (v, e) ∧ (e ≠ none ↔ g.prime ≤ i)) ∧
    (g.prime ≤ i → Index g i = .ok (i, some (.invalidIndex i))) ∧
    (i < g.prime → ∃ q q2, permuteQPR g i = .ok q ∧
      permuteQPR g (applyMask g (add64 q g.intermediateOffset % g.prime)) = .ok q2 ∧
      Index g i = .ok (add64 g.offset q2, none)) ∧
    step g (.index i) = .ok g := by
  obtain ⟨v, e, hI, he⟩ := Index_total g i
  refine ⟨⟨v, e, hI, ?_⟩, Index_error g i, ?_, ?_⟩
  · rw [Ne, he]; omega
  · intro hi
    obtain ⟨q, r, q2, hq, hr, hq2, h⟩ := Index_ok g i hi
    subst hr
    exact ⟨q, q2, hq, hq2, h⟩
  · simp only [step, hI]
    rfl

/-- C12: when `New prime seed0 k` and `New prime seed0 0` both return without
error, `Index` on the first generator is `k + Index` on the second, the sum
taken modulo `2 ^ 64`, at every index below the prime. -/
theorem offset_shift (p seed0 k i : Nat) (g1 g0 : QuadraticResiduePRNG)
    (h1 : New p seed0 k = .ok (g1, none)) (h0 : New p seed0 0 = .ok (g0, none))
    (hi : i < p) :
    ∃ v, Index g0 i = .ok (v, none) ∧ Index g1 i = .ok (add64 k v, none) := by
  obtain ⟨hp1, hs1, ho1, hi1, -, hm1, hk1⟩ := New_fields p seed0 k g1 h1
  obtain ⟨hp0, hs0, ho0, hi0, -, hm0, hk0⟩ := New_fields p seed0 0 g0 h0
  have hmax : g1.maxMask = g0.maxMask := by
    rw [hm0] at hm1
    exact (Except.ok.inj hm1).symm
  have hmask : g1.mask = g0.mask := by
    rw [hmax, hk0] at hk1
    exact (Except.ok.inj hk1).symm
  have hg : g1 = { g0 with offset := k } := by
    cases g1; cases g0
    simp only [QuadraticResiduePRNG.mk.injEq] at *
    subst hp1 hs1 ho1 hi1 hmax hmask
    exact ⟨hp0.symm, hs0.symm, rfl, rfl, rfl, hi0.symm⟩
  obtain ⟨q, r, q2, hq, hr, hq2, h⟩ := Index_ok g0 i (by rw [hp0]; exact hi)
  obtain ⟨q', r', q2', hq', hr', hq2', h'⟩ := Index_ok { g0 with offset := k } i
    (by show i < g0.prime; rw [hp0]; exact hi)
  rw [permuteQPR_offset, hq] at hq'
  have hqq : q' = q := (Except.ok.inj hq').symm
  subst hqq
  have hrr : r' = r := by rw [hr, hr']
  subst hrr
  rw [permuteQPR_offset, applyMask_offset, hq2] at hq2'
  have hq2q : q2' = q2 := (Except.ok.inj hq2').symm
  subst hq2q
  refine ⟨add64 g0.offset q2', h, ?_⟩
  rw [hg, h', ho0]
  show Except.ok (add64 k q2', none) = Except.ok (add64 k (add64 0 q2'), none)
  have : add64 k (add64 0 q2') = add64 k q2' := by
    unfold add64
    omega
  rw [this]

theorem offset_shift_witness :
    ∃ v, Index
        { prime := 11, intermediateOffset := 0, offset := 0, maxMask := 7, mask := 6,
          idx := 0 } 4 = .ok (v, none) ∧
      Index
        { prime := 11, intermediateOffset := 0, offset := 2 ^ 64 - 3, maxMask := 7, mask := 6,
          idx := 0 } 4 = .ok (add64 (2 ^ 64 - 3) v, none) :=
  offset_shift 11 0 (2 ^ 64 - 3) 4 _ _
    (New_of_ok 11 0 (2 ^ 64 - 3) 7 6
      (by rw [validate_eq _ _ _ (by norm_num)]; norm_num) (by decide)
      calculateMask_eleven_zero)
    (New_eleven 0 6 (by norm_num) calculateMask_eleven_zero) (by norm_num)

/-- C13: on every generator state one call of `Uint64` returns the value
component of `Index idx` (also when `idx ≥ prime` and `Index` reports an error),
sets `idx` to `(idx + 1) mod 2 ^ 64` and leaves `prime`, `intermediateOffset`,
`offset`, `maxMask` and `mask` unchanged. -/
theorem Uint64_advances_only_counter (g : QuadraticResiduePRNG) :
    ∃ v e st, Index g g.idx = .ok (v, e) ∧ (e ≠ none ↔ g.prime ≤ g.idx) ∧
      Uint64 g = .ok (v, st) ∧ st.idx = (g.idx + 1) % 2 ^ 64 ∧ st.prime = g.prime ∧
      st.intermediateOffset = g.intermediateOffset ∧ st.offset = g.offset ∧
      st.maxMask = g.maxMask ∧ st.mask = g.mask := by
  obtain ⟨v, e, hI, he⟩ := Index_total g g.idx
  refine ⟨v, e, _, hI, ?_, Uint64_ok g v e hI, rfl, rfl, rfl, rfl, rfl, rfl⟩
  rw [Ne, he]; omega

/-- C14: on every generator state `Int63` returns `int64(u & (2 ^ 63 - 1))`
for the value `u` that `Uint64` returns from that state, which is `u mod 2 ^ 63`
and lies in `[0, 2 ^ 63)`, and it leaves the generator in the state that
`Uint64` leaves it in. -/
theorem Int63_clears_sign_bit (g : QuadraticResiduePRNG) :
    ∃ u st r, Uint64 g = .ok (u, st) ∧ Int63 g = .ok (r, st) ∧
      r = toInt64 ((u &&& (2 ^ 63 - 1) : Nat) : Int) ∧ r = ((u % 2 ^ 63 : Nat) : Int) ∧
      0 ≤ r ∧ r < 2 ^ 63 := by
  obtain ⟨v, e, hI, -⟩ := Index_total g g.idx
  have hU := Uint64_ok g v e hI
  have hand : v &&& INT63_MASK = v % 2 ^ 63 := by
    rw [INT63_MASK_eq]
    exact Nat.and_pow_two_sub_one_eq_mod v 63
  have hlt : v % 2 ^ 63 < 2 ^ 63 := Nat.mod_lt _ (by norm_num)
  have hto : toInt64 ((v % 2 ^ 63 : Nat) : Int) = ((v % 2 ^ 63 : Nat) : Int) :=
    toInt64_eq _ (by omega) (by omega)
  refine ⟨v, _, toInt64 ((v &&& INT63_MASK : Nat) : Int), hU, ?_, ?_, ?_, ?_, ?_⟩
  · unfold Int63
    rw [hU]
    rfl
  · rw [INT63_MASK_eq]
  · rw [hand, hto]
  · rw [hand, hto]; omega
  · rw [hand, hto]; omega

/-- C15: the default prime is `2 ^ 64 - 189`, it is prime and congruent to 3
modulo 4, and every number `n` with `DEFAULT_PRIME < n < 2 ^ 64` and
`n % 4 = 3` has a divisor strictly between 1 and `n`, so it is not prime. -/
theorem DEFAULT_PRIME_largest (n : Nat) (hlo : DEFAULT_PRIME < n) (hhi : n < 2 ^ 64)
    (h4 : n % 4 = 3) :
    DEFAULT_PRIME = 2 ^ 64 - 189 ∧ DEFAULT_PRIME.Prime ∧ DEFAULT_PRIME % 4 = 3 ∧
      ¬ n.Prime ∧ ∃ d, 1 < d ∧ d < n ∧ d ∣ n := by
  obtain ⟨d, h1, h2, h3⟩ := not_prime_above_default n hlo hhi h4
  refine ⟨by decide, DEFAULT_PRIME_prime, by decide, ?_, d, h1, h2, h3⟩
  intro hn
  rcases (Nat.dvd_prime hn).mp h3 with h | h <;> omega

theorem DEFAULT_PRIME_largest_witness :
    DEFAULT_PRIME = 2 ^ 64 - 189 ∧ DEFAULT_PRIME.Prime ∧ DEFAULT_PRIME % 4 = 3 ∧
      ¬ (2 ^ 64 - 173).Prime ∧ ∃ d, 1 < d ∧ d < 2 ^ 64 - 173 ∧ d ∣ 2 ^ 64 - 173 :=
  DEFAULT_PRIME_largest (2 ^ 64 - 173) (by decide) (by decide) (by decide)

/-- C16: on the default generator `permuteQPR (2 ^ 32)` is `0`, because the
product `2 ^ 32 * 2 ^ 32` wraps to `0` in `uint64`; the exact product reduced
modulo the prime is `189`, and `2 ^ 32 ≤ prime / 2`. -/
theorem permuteQPR_wraps :
    ∃ g, Default = .ok g ∧ g.prime = DEFAULT_PRIME ∧ g.prime.Prime ∧ 2 ^ 32 < g.prime ∧
      2 ^ 32 ≤ g.prime / 2 ∧ mul64 (2 ^ 32) (2 ^ 32) = 0 ∧
      permuteQPR g (2 ^ 32) = .ok 0 ∧ (2 ^ 32 * 2 ^ 32) % g.prime = 189 ∧
      fold g.prime (2 ^ 32) = 189 :=
  ⟨_, Default_eq, rfl, DEFAULT_PRIME_prime, by decide, by decide, by decide, by decide!,
    by decide, by decide⟩

/-- C17: for a generator whose prime `p` is congruent to 3 modulo 4 and below
`2 ^ 32`, `permuteQPR` maps `[0, p)` into `[0, p)` and is injective there, so its
values on `[0, p)` are exactly `[0, p)`; `permuteQPR 0 = 0` and
`permuteQPR i + permuteQPR (p - i) = p` for `0 < i < p`. -/
theorem permuteQPR_bijection (g : QuadraticResiduePRNG) (hp : g.prime.Prime)
    (h4 : g.prime % 4 = 3) (h32 : g.prime < 2 ^ 32) :
    ∃ f : Nat → Nat, (∀ i, i < g.prime → permuteQPR g i = .ok (f i)) ∧
      (∀ i, i < g.prime → f i < g.prime) ∧
      (∀ i j, i < g.prime → j < g.prime → f i = f j → i = j) ∧
      (Finset.range g.prime).image f = Finset.range g.prime ∧ f 0 = 0 ∧
      ∀ i, 0 < i → i < g.prime → f i + f (g.prime - i) = g.prime := by
  have hinj : ∀ i j, i < g.prime → j < g.prime → fold g.prime i = fold g.prime j → i = j :=
    fun i j hi hj h => fold_inj _ i j hp h4 hi hj h
  have hlt : ∀ i, i < g.prime → fold g.prime i < g.prime := fun i hi => fold_lt _ i hp hi
  refine ⟨fold g.prime, ?_, hlt, hinj, image_eq_range _ _ hlt hinj, fold_zero _,
    fun i _ hi => fold_add_fold_sub _ i hp h4 hi⟩
  intro i hi
  apply permuteQPR_eq_fold g i hp.pos.ne' (by omega)
  have h1 : i * i ≤ 2 ^ 32 * 2 ^ 32 := Nat.mul_le_mul (by omega) (by omega)
  have h2 : i * i < 2 ^ 32 * 2 ^ 32 := Nat.mul_lt_mul'' (by omega) (by omega)
  norm_num at h2 ⊢
  omega

theorem permuteQPR_bijection_witness :
    ∃ f : Nat → Nat, (∀ i, i < 7 → permuteQPR
        { prime := 7, intermediateOffset := 0, offset := 0, maxMask := 3, mask := 2,
          idx := 0 } i = .ok (f i)) ∧
      (∀ i, i < 7 → f i < 7) ∧
      (∀ i j, i < 7 → j < 7 → f i = f j → i = j) ∧
      (Finset.range 7).image f = Finset.range 7 ∧ f 0 = 0 ∧
      ∀ i, 0 < i → i < 7 → f i + f (7 - i) = 7 :=
  permuteQPR_bijection
    { prime := 7, intermediateOffset := 0, offset := 0, maxMask := 3, mask := 2, idx := 0 }
    (by norm_num) (by decide) (by decide)

/-- C18: the generator that `New` returns without error on `uint64` arguments
has `maxMask = 2 ^ (bitlength(prime - 1) - 1) - 1`, `maxMask < prime`, and
`mask = min + (prime + intermediateOffset) mod (maxMask - min)` with
`min = 2 ^ (bitlength(maxMask) - 1)`, so `min ≤ mask < maxMask` and `mask ≠ 0`. -/
theorem derived_mask_values (p seed0 off : Nat) (g : QuadraticResiduePRNG) (h64 : p < 2 ^ 64)
    (hnew : New p seed0 off = .ok (g, none)) :
    g.maxMask = 2 ^ (Len64 (g.prime - 1) - 1) - 1 ∧ g.maxMask < g.prime ∧
      2 ^ (Len64 g.maxMask - 1) ≤ g.mask ∧ g.mask < g.maxMask ∧ g.mask ≠ 0 ∧
      g.mask = 2 ^ (Len64 g.maxMask - 1)
        + add64 g.prime g.intermediateOffset % (g.maxMask - 2 ^ (Len64 g.maxMask - 1)) := by
  obtain ⟨k, hk2, hk, hk1, hlt, hprime, hmax, hlen, hlo, hhi, hm⟩ :=
    New_masks p seed0 off g h64 hnew
  obtain ⟨-, hs, -, -, -, -, -⟩ := New_fields p seed0 off g hnew
  have hsplit : (2 : Nat) ^ k = 2 ^ (k - 1) * 2 := by
    rw [← pow_succ]; congr 1; omega
  have hpos : 0 < (2 : Nat) ^ (k - 1) := by positivity
  have hk' : Len64 (p - 1) - 1 = k := by omega
  have hd : 2 ^ k - 1 - 2 ^ (k - 1) = 2 ^ (k - 1) - 1 := by omega
  rw [hprime, hmax, hlen, hk', hs, hd] at *
  exact ⟨rfl, by omega, hlo, hhi, by omega, hm⟩

theorem derived_mask_values_witness :
    (3 : Nat) = 2 ^ (Len64 (7 - 1) - 1) - 1 ∧ (3 : Nat) < 7 ∧
      2 ^ (Len64 3 - 1) ≤ 2 ∧ (2 : Nat) < 3 ∧ (2 : Nat) ≠ 0 ∧
      (2 : Nat) = 2 ^ (Len64 3 - 1) + add64 7 0 % (3 - 2 ^ (Len64 3 - 1)) :=
  derived_mask_values 7 0 0 _ (by norm_num) New_seven

/-- C19: on a generator that `New` returns without error (on `uint64`
arguments), `applyMask i` is `i XOR mask` for `i ≤ maxMask`, stays within
`[0, maxMask]` and differs from `i`; it is `i` for `i > maxMask`; `applyMask` is
its own inverse, maps `[0, prime)` into itself, and its values on `[0, prime)`
are exactly `[0, prime)`. -/
theorem applyMask_low_band (p seed0 off i : Nat) (g : QuadraticResiduePRNG)
    (h64 : p < 2 ^ 64) (hnew : New p seed0 off = .ok (g, none)) :
    (i ≤ g.maxMask →
      applyMask g i = i ^^^ g.mask ∧ applyMask g i ≤ g.maxMask ∧ applyMask g i ≠ i) ∧
    (g.maxMask < i → applyMask g i = i) ∧
    applyMask g (applyMask g i) = i ∧
    (i < g.prime → applyMask g i < g.prime) ∧
    (∀ x y, applyMask g x = applyMask g y → x = y) ∧
    (Finset.range g.prime).image (applyMask g) = Finset.range g.prime := by
  obtain ⟨k, -, -, -, hlt, hprime, hmax, -, hlo, hhi, -⟩ := New_masks p seed0 off g h64 hnew
  have hmask : g.mask < 2 ^ k := by omega
  have hpos : 0 < (2 : Nat) ^ (k - 1) := by positivity
  have hpk : 0 < (2 : Nat) ^ k := by positivity
  have hinj : ∀ x y, applyMask g x = applyMask g y → x = y :=
    fun x y h => applyMask_inj_of_invol g k x y hmax hmask h
  have hmap : ∀ x, x < g.prime → applyMask g x < g.prime :=
    fun x hx => applyMask_lt g k g.prime x hmax hmask (by rw [hprime]; exact hlt) hx
  refine ⟨?_, ?_, applyMask_applyMask g k i hmax hmask, hmap i, hinj,
    image_eq_range _ _ hmap (fun x y _ _ h => hinj x y h)⟩
  · intro hi
    have hx : i ^^^ g.mask < 2 ^ k := Nat.xor_lt_two_pow (by omega) hmask
    have ha : applyMask g i = i ^^^ g.mask := by
      unfold applyMask
      rw [if_pos hi]
    refine ⟨ha, by rw [ha]; omega, ?_⟩
    rw [ha]
    intro hfix
    have h0 : i ^^^ g.mask = i ^^^ 0 := by rw [hfix, Nat.xor_zero]
    have := Nat.xor_right_inj.mp h0
    omega
  · intro hi
    unfold applyMask
    rw [if_neg (by omega)]

theorem applyMask_low_band_witness :
    ((2 : Nat) ≤ 3 → applyMask
        { prime := 7, intermediateOffset := 0, offset := 0, maxMask := 3, mask := 2,
          idx := 0 } 2 = 2 ^^^ 2 ∧ applyMask
        { prime := 7, intermediateOffset := 0, offset := 0, maxMask := 3, mask := 2,
          idx := 0 } 2 ≤ 3 ∧ applyMask
        { prime := 7, intermediateOffset := 0, offset := 0, maxMask := 3, mask := 2,
          idx := 0 } 2 ≠ 2) ∧
    applyMask
        { prime := 7, intermediateOffset := 0, offset := 0, maxMask := 3, mask := 2,
          idx := 0 } (applyMask
        { prime := 7, intermediateOffset := 0, offset := 0, maxMask := 3, mask := 2,
          idx := 0 } 2) = 2 := by
  have h := applyMask_low_band 7 0 0 2 _ (by norm_num) New_seven
  exact ⟨h.1, h.2.2.1⟩

/-- C20: the permutation does not survive every reseed.  On the generator
`New 7 0 0`, `Seed (-1)` stores the intermediate offset `2 ^ 64 - 2`; then
`permuteQPR 3 + intermediateOffset = 2 + (2 ^ 64 - 2)` wraps to `0`, and
`Index 0` and `Index 3` both return `4`, while `3` and `6` are never returned. -/
theorem reseed_negative_breaks_permutation :
    ∃ g, New 7 0 0 = .ok (g, none) ∧ g.prime < 2 ^ 32 ∧
      (Seed g (-1)).intermediateOffset = 2 ^ 64 - 2 ∧
      permuteQPR (Seed g (-1)) 3 = .ok 2 ∧ add64 2 (2 ^ 64 - 2) = 0 ∧
      Index (Seed g (-1)) 0 = .ok (4, none) ∧ Index (Seed g (-1)) 3 = .ok (4, none) ∧
      (List.range 7).map (Index (Seed g (-1))) =
        [.ok (4, none), .ok (2, none), .ok (0, none), .ok (4, none), .ok (1, none),
         .ok (2, none), .ok (5, none)] :=
  ⟨_, New_seven, by decide, by decide, by decide, by decide, by decide, by decide, by decide⟩

end Qrprng
